import Mathlib

/-!
Verification of the emoji-name parsing and normalization core of
`scripts/emoji_mappings.py` (with constants from `scripts/unicode_constants.py`).

Strings are modelled as `List Char` (`Str`); Python dictionaries over integer
codepoints are modelled as association lists (`Dict`) with insertion that
overwrites the value at an existing key in place and appends new keys at the
end, exactly like CPython's insertion-ordered dicts.  Codepoints are `Int`
because Python's `int(tok, 16)` accepts a sign.  Fallible operations return
`Option`; a Python exception is modelled as `none`.
-/

abbrev Str := List Char

abbrev Dict := List (Int × Str)

/-- Python whitespace as used by `str.strip()` / `str.split()` with no
arguments: the ASCII whitespace characters plus NEL and NBSP.  (Further exotic
Unicode space characters exist in Python; they never occur in the inputs the
claims are about.) -/
def isPySpace (c : Char) : Bool :=
  c == ' ' || c == '\t' || c == '\n' || c == '\r' || c == '\x0b' || c == '\x0c' ||
  c == '\x85' || c == '\xa0'

/-- Python's `sep in s` membership test for a single character. -/
def pyContains (cs : Str) (c : Char) : Bool :=
  cs.any (fun d => d == c)

/-- Python's `s.startswith(p)` for one candidate. -/
def pyStartswith : Str → Str → Bool
  | [], _ => true
  | _ :: _, [] => false
  | p :: ps, c :: cs => p == c && pyStartswith ps cs

/-- Remove trailing Python whitespace (`str.rstrip()`). -/
def pyStripRight (cs : Str) : Str :=
  (cs.reverse.dropWhile isPySpace).reverse

/-- Python's `s.strip()`. -/
def pyStrip (cs : Str) : Str :=
  pyStripRight (cs.dropWhile isPySpace)

/-- The characters before the first occurrence of `sep`
(Python `s.split(sep)[0]`; the whole string when `sep` is absent). -/
def beforeChar (sep : Char) (cs : Str) : Str :=
  cs.takeWhile (fun c => !(c == sep))

/-- The characters after the first occurrence of `sep`
(Python `s.split(sep, 1)[1]` when `sep` occurs in `s`). -/
def afterFirst (sep : Char) (cs : Str) : Str :=
  (cs.dropWhile (fun c => !(c == sep))).tail

/-- Python's `s.split(sep, maxsplit)` for a one-character separator: split at
up to `maxsplit` occurrences of `sep`, keeping empty pieces. -/
def pySplitCharMax (sep : Char) : Nat → Str → List Str
  | 0, cs => [cs]
  | n + 1, cs =>
    if pyContains cs sep then
      cs.takeWhile (fun c => !(c == sep)) ::
        pySplitCharMax sep n ((cs.dropWhile (fun c => !(c == sep))).tail)
    else [cs]

/-- Interleave the pieces of a split with the separator (Python
`sep.join(pieces)`); the left inverse of splitting. -/
def joinSep (sep : Char) : List Str → Str
  | [] => []
  | [x] => x
  | x :: y :: xs => x ++ sep :: joinSep sep (y :: xs)

/-- Python's no-argument `s.split()`: split on runs of whitespace, discarding
empty pieces.  `acc` holds the (reversed) characters of the token being read. -/
def pySplitWsAux : Str → Str → List Str
  | [], acc => if acc.isEmpty then [] else [acc.reverse]
  | c :: cs, acc =>
    if isPySpace c then
      if acc.isEmpty then pySplitWsAux cs [] else acc.reverse :: pySplitWsAux cs []
    else pySplitWsAux cs (c :: acc)

/-- Python's no-argument `s.split()`. -/
def pySplitWs (cs : Str) : List Str :=
  pySplitWsAux cs []

/-- The output alphabet of the normalizer: the regex character class
`[a-z0-9#()*_]` of `_normalize_emoji_name`, by codepoint
(`a`-`z` = 0x61-0x7A, `0`-`9` = 0x30-0x39, `#` = 0x23, `(` = 0x28,
`)` = 0x29, `*` = 0x2A, `_` = 0x5F). -/
def isAllowed (c : Char) : Bool :=
  (0x61 ≤ c.toNat && c.toNat ≤ 0x7A) || (0x30 ≤ c.toNat && c.toNat ≤ 0x39) ||
  c.toNat == 0x23 || c.toNat == 0x28 || c.toNat == 0x29 || c.toNat == 0x2A ||
  c.toNat == 0x5F

/-- Per-character model of Python's `str.lower()`: ASCII `A`-`Z` and the
Latin-1 uppercase letters `À`-`Þ` (except `×`) map to their lowercase forms
(codepoint + 32).  Broader Unicode lowercasing is irrelevant downstream: every
character outside `[a-z0-9#()*_]` is replaced by an underscore anyway. -/
def pyLowerChar (c : Char) : Char :=
  if (0x41 ≤ c.toNat && c.toNat ≤ 0x5A) ||
     (0xC0 ≤ c.toNat && c.toNat ≤ 0xDE && !(c.toNat == 0xD7)) then
    Char.ofNat (c.toNat + 32)
  else c

/-- `re.sub(r'[^a-z0-9#()*_]+', '_', name)`: replace every maximal run of
characters outside the alphabet by a single underscore.  The flag records
whether the previous character was part of such a run (so its underscore has
already been emitted). -/
def subDisallowedAux : Bool → Str → Str
  | _, [] => []
  | prevBad, c :: cs =>
    if isAllowed c then c :: subDisallowedAux false cs
    else if prevBad then subDisallowedAux true cs
    else '_' :: subDisallowedAux true cs

/-- `re.sub(r'[^a-z0-9#()*_]+', '_', name)`. -/
def subDisallowed (cs : Str) : Str :=
  subDisallowedAux false cs

/-- `re.sub(r'_+', '_', name)`: collapse every maximal run of underscores into
a single underscore.  The flag records whether the previous character was an
underscore (already emitted). -/
def collapseUnderscoresAux : Bool → Str → Str
  | _, [] => []
  | prevU, c :: cs =>
    if c == '_' then
      if prevU then collapseUnderscoresAux true cs
      else '_' :: collapseUnderscoresAux true cs
    else c :: collapseUnderscoresAux false cs

/-- `re.sub(r'_+', '_', name)`. -/
def collapseUnderscores (cs : Str) : Str :=
  collapseUnderscoresAux false cs

/-- Whether the string has two consecutive underscores somewhere. -/
def hasDoubleUnderscore : Str → Bool
  | [] => false
  | [_] => false
  | c :: d :: cs => (c == '_' && d == '_') || hasDoubleUnderscore (d :: cs)

/-- Whether the string starts with an underscore. -/
def headIsUnd : Str → Bool
  | [] => false
  | c :: _ => c == '_'

/-- Steps 2-5 of `_normalize_emoji_name`, applied after the colon handling:
`name = emoji_name.lower()`, `name = name.replace('ñ', 'n')`,
`name = re.sub(r'[^a-z0-9#()*_]+', '_', name)`, `re.sub(r'_+', '_', name)`. -/
def normTail (emoji_name : Str) : Str :=
  collapseUnderscores (subDisallowed
    ((emoji_name.map pyLowerChar).map (fun c => if c == 'ñ' then 'n' else c)))

/-- `_normalize_emoji_name` from `scripts/emoji_mappings.py`:
colon handling (the `flag:`/`keycap:` special case, otherwise truncation at
the first colon with `.strip()`), then lowercasing, the `ñ` transliteration,
and the two regex substitutions. -/
def _normalize_emoji_name (emoji_name : Str) : Str :=
  normTail
    (if pyContains emoji_name ':' then
      if pyStartswith "flag:".data emoji_name || pyStartswith "keycap:".data emoji_name then
        "flag_".data ++ (pyStrip (afterFirst ':' emoji_name)).map pyLowerChar
      else pyStrip (beforeChar ':' emoji_name)
    else emoji_name)

/-- `_extract_emoji_name`: `comment_part.split(' ', 2)`, returning the third
piece when there are at least three pieces, else `None`. -/
def _extract_emoji_name (comment_part : Str) : Option Str :=
  if 3 ≤ (pySplitCharMax ' ' 2 comment_part).length then
    (pySplitCharMax ' ' 2 comment_part).get? 2
  else none

/-- The comment field of a line: `line.split(';', 1)[1].split('#', 1)[1].strip()`
(meaningful when the line contains `;` and the remainder contains `#`). -/
def commentOf (line : Str) : Str :=
  pyStrip (afterFirst '#' (afterFirst ';' line))

/-- `_parse_line` from `scripts/emoji_mappings.py`: reject empty and
comment lines and lines without `;` or `#`; split off the codepoint field at
the first `;`; require a `#` in the remainder; extract the raw name from the
comment field and reject if missing or empty; return the whitespace-split
codepoint tokens and the normalized name. -/
def _parse_line (line : Str) : Option (List Str × Str) :=
  if line.isEmpty || pyStartswith "#".data line then none
  else if !(pyContains line ';') || !(pyContains line '#') then none
  else if !(pyContains (afterFirst ';' line) '#') then none
  else
    match _extract_emoji_name (commentOf line) with
    | none => none
    | some raw =>
      if raw.isEmpty then none
      else some (pySplitWs (pyStrip (beforeChar ';' line)), _normalize_emoji_name raw)

/-- ASCII hexadecimal digit. -/
def isHexDigit (c : Char) : Bool :=
  (0x30 ≤ c.toNat && c.toNat ≤ 0x39) || (0x61 ≤ c.toNat && c.toNat ≤ 0x66) ||
  (0x41 ≤ c.toNat && c.toNat ≤ 0x46)

/-- Value of an ASCII hexadecimal digit. -/
def hexDigitVal (c : Char) : Nat :=
  if 0x30 ≤ c.toNat && c.toNat ≤ 0x39 then c.toNat - 0x30
  else if 0x61 ≤ c.toNat && c.toNat ≤ 0x66 then c.toNat - 0x61 + 10
  else c.toNat - 0x41 + 10

/-- Continuation of hexadecimal-digit parsing: further digits, with single
underscores allowed between digits (PEP 515), as accepted by `int(s, 16)`. -/
def hexTail : Nat → Str → Option Nat
  | acc, [] => some acc
  | acc, c :: cs =>
    if isHexDigit c then hexTail (16 * acc + hexDigitVal c) cs
    else if c == '_' then
      match cs with
      | [] => none
      | d :: ds => if isHexDigit d then hexTail (16 * acc + hexDigitVal d) ds else none
    else none

/-- A nonempty underscore-grouped string of hexadecimal digits. -/
def hexDigits : Str → Option Nat
  | [] => none
  | c :: cs => if isHexDigit c then hexTail (hexDigitVal c) cs else none

/-- The part of `int(s, 16)` after sign handling: an optional `0x`/`0X`
prefix (which may be followed by one underscore), then hexadecimal digits. -/
def hexBody : Str → Option Nat
  | '0' :: x :: r =>
    if x == 'x' || x == 'X' then
      match r with
      | '_' :: r2 => hexDigits r2
      | _ => hexDigits r
    else hexDigits ('0' :: x :: r)
  | r => hexDigits r

/-- Python's `int(s, 16)`: surrounding whitespace stripped, an optional sign,
an optional `0x`/`0X` prefix, underscore-grouped hexadecimal digits.
`none` models the `ValueError` raised on malformed input.  (Python would also
accept exotic Unicode decimal digits; those never occur in hexadecimal
registry tokens and are not modelled.) -/
def pyIntBase16? (s : Str) : Option Int :=
  match pyStrip s with
  | '-' :: r => (hexBody r).map (fun n => -(n : Int))
  | '+' :: r => (hexBody r).map (fun n => (n : Int))
  | r => (hexBody r).map (fun n => (n : Int))

/-- `[int(cp, 16) for cp in codepoint_list]`: left-to-right conversion,
failing (raising) at the first malformed token. -/
def mapIntTokens : List Str → Option (List Int)
  | [] => some []
  | t :: ts =>
    match pyIntBase16? t with
    | none => none
    | some n => (mapIntTokens ts).map (fun ns => n :: ns)

/-- Lookup in an insertion-ordered dictionary. -/
def dlookup : Dict → Int → Option Str
  | [], _ => none
  | (k0, v0) :: rest, k => if k0 = k then some v0 else dlookup rest k

/-- `d[k] = v` on a Python dict: overwrite the value at an existing key in
place, else append the new pair at the end. -/
def dinsert : Dict → Int → Str → Dict
  | [], k, v => [(k, v)]
  | (k0, v0) :: rest, k, v =>
    if k0 = k then (k0, v) :: rest else (k0, v0) :: dinsert rest k v

/-- `{**a, **b}`: a copy of `a` updated with every entry of `b` in order. -/
def dmerge (a b : Dict) : Dict :=
  b.foldl (fun d p => dinsert d p.1 p.2) a

/-- `ZWJ` from `scripts/unicode_constants.py`. -/
def ZWJ : Int := 0x200D

/-- `REGIONAL_INDICATOR_A` from `scripts/unicode_constants.py`. -/
def REGIONAL_INDICATOR_A : Int := 0x1F1E6

/-- `REGIONAL_INDICATOR_Z` from `scripts/unicode_constants.py`. -/
def REGIONAL_INDICATOR_Z : Int := 0x1F1FF

/-- Python's `range(a, b)`. -/
def pyRange (a b : Int) : List Int :=
  (List.range (b - a).toNat).map (fun i => a + i)

/-- `SPECIAL_MAPPINGS` from `scripts/emoji_mappings.py`: the dict literal
`{ZWJ: "_"}` followed by the loop inserting
`cp ↦ "regional_indicator_" + chr(cp - REGIONAL_INDICATOR_A + ord('a'))`
for `cp in range(REGIONAL_INDICATOR_A, REGIONAL_INDICATOR_Z + 1)`.
It takes no input: the table does not depend on the registry file. -/
def SPECIAL_MAPPINGS : Dict :=
  (pyRange REGIONAL_INDICATOR_A (REGIONAL_INDICATOR_Z + 1)).foldl
    (fun d cp =>
      dinsert d cp
        ("regional_indicator_".data ++ [Char.ofNat (cp - REGIONAL_INDICATOR_A + 0x61).toNat]))
    [(ZWJ, "_".data)]

/-- `ALL_MAPPINGS = {**EMOJI_MAPPINGS, **SPECIAL_MAPPINGS}`, parameterized by
the registry-derived mapping (`EMOJI_MAPPINGS` is built from the data file,
which is not part of the scripts). -/
def ALL_MAPPINGS (emoji_mappings : Dict) : Dict :=
  dmerge emoji_mappings SPECIAL_MAPPINGS

/-- One iteration of the loop in `parse_emoji_test`: strip the line, parse it,
skip it if rejected; for more than one codepoint token convert all tokens and
append a composition sequence; otherwise convert `codepoint_list[0]` (an
`IndexError` on an empty token list and a `ValueError` on a malformed token
are both `none`) and insert into the single-codepoint mapping. -/
def parseEmojiStep (st : Dict × List (List Int × Str)) (line : Str) :
    Option (Dict × List (List Int × Str)) :=
  match _parse_line (pyStrip line) with
  | none => some st
  | some (codepoint_list, name) =>
    if codepoint_list.length > 1 then
      match mapIntTokens codepoint_list with
      | none => none
      | some codepoint_ints => some (st.1, st.2 ++ [(codepoint_ints, name)])
    else
      match codepoint_list.head? with
      | none => none
      | some t =>
        match pyIntBase16? t with
        | none => none
        | some codepoint => some (dinsert st.1 codepoint name, st.2)

/-- The line loop of `parse_emoji_test`. -/
def parseGo : List Str → Dict × List (List Int × Str) → Option (Dict × List (List Int × Str))
  | [], st => some st
  | l :: ls, st =>
    match parseEmojiStep st l with
    | none => none
    | some st2 => parseGo ls st2

/-- `parse_emoji_test` from `scripts/emoji_mappings.py`, over the list of
lines of the input file; `none` models an uncaught exception. -/
def parse_emoji_test (lines : List Str) : Option (Dict × List (List Int × Str)) :=
  parseGo lines ([], [])

/-- The condition under which processing a line raises: the line is accepted
by `_parse_line` and its codepoint field has no tokens at all (`IndexError`
on `codepoint_list[0]`) or contains a token not accepted by `int(tok, 16)`
(`ValueError`). -/
def badLine (l : Str) : Prop :=
  match _parse_line (pyStrip l) with
  | none => False
  | some (cps, _) => cps = [] ∨ ∃ t ∈ cps, pyIntBase16? t = none

/-- Modelled from the spec: claim C8's "split the comment field on whitespace
into at most 3 pieces" read as Python's `comment.split(None, maxsplit)`, i.e.
splitting on runs of whitespace with empty pieces discarded.  This is the
claim's wording; the source instead uses `comment_part.split(' ', 2)`. -/
def specSplitWsMax : Nat → Str → List Str
  | 0, cs =>
    if (cs.dropWhile isPySpace).isEmpty then [] else [cs.dropWhile isPySpace]
  | n + 1, cs =>
    if (cs.dropWhile isPySpace).isEmpty then []
    else
      (cs.dropWhile isPySpace).takeWhile (fun c => !(isPySpace c)) ::
        specSplitWsMax n ((cs.dropWhile isPySpace).dropWhile (fun c => !(isPySpace c)))

/-! ## Lemmas about the normalizer output alphabet -/

theorem subDisallowedAux_all (cs : Str) : ∀ b, (subDisallowedAux b cs).all isAllowed = true := by
  induction cs with
  | nil => intro b; rfl
  | cons c cs ih =>
    intro b
    by_cases h : isAllowed c = true
    · simp [subDisallowedAux, h, ih]
    · simp only [subDisallowedAux, h, if_false, Bool.false_eq_true]
      by_cases hb : b
      · simp [hb, ih]
      · simp only [hb, if_false]
        simp [List.all_cons, ih]
        decide

theorem collapseUnderscoresAux_all (cs : Str) :
    ∀ b, cs.all isAllowed = true → (collapseUnderscoresAux b cs).all isAllowed = true := by
  induction cs with
  | nil => intro b _; rfl
  | cons c cs ih =>
    intro b h
    rw [List.all_cons, Bool.and_eq_true] at h
    by_cases hc : c == '_'
    · by_cases hb : b
      · simp [collapseUnderscoresAux, hc, hb, ih true h.2]
      · simp only [collapseUnderscoresAux, hc, hb, if_true, if_false]
        simp [List.all_cons, ih true h.2]
        decide
    · simp [collapseUnderscoresAux, hc, List.all_cons, h.1, ih false h.2]

theorem collapseUnderscoresAux_head (cs : Str) :
    headIsUnd (collapseUnderscoresAux true cs) = false := by
  induction cs with
  | nil => rfl
  | cons c cs ih =>
    by_cases hc : c == '_'
    · simpa [collapseUnderscoresAux, hc] using ih
    · simp [collapseUnderscoresAux, hc, headIsUnd]

theorem collapseUnderscoresAux_noDouble (cs : Str) :
    ∀ b, hasDoubleUnderscore (collapseUnderscoresAux b cs) = false := by
  induction cs with
  | nil => intro b; rfl
  | cons c cs ih =>
    intro b
    by_cases hc : c == '_'
    · by_cases hb : b
      · simpa [collapseUnderscoresAux, hc, hb] using ih true
      · simp only [collapseUnderscoresAux, hc, hb, if_true, if_false]
        have hhead := collapseUnderscoresAux_head cs
        cases hout : collapseUnderscoresAux true cs with
        | nil => rfl
        | cons d rest =>
          rw [hout] at hhead
          simp only [headIsUnd] at hhead
          have := ih true
          rw [hout] at this
          simp [hasDoubleUnderscore, hhead, this]
    · cases hout : collapseUnderscoresAux false cs with
      | nil => simp [collapseUnderscoresAux, hc, hout, hasDoubleUnderscore]
      | cons d rest =>
        have := ih false
        rw [hout] at this
        simp [collapseUnderscoresAux, hc, hout, hasDoubleUnderscore, this]

theorem normTail_all (cs : Str) : (normTail cs).all isAllowed = true :=
  collapseUnderscoresAux_all _ false (subDisallowedAux_all _ false)

theorem normalize_all (s : Str) : (_normalize_emoji_name s).all isAllowed = true :=
  normTail_all _

theorem normalize_noDouble (s : Str) :
    hasDoubleUnderscore (_normalize_emoji_name s) = false :=
  collapseUnderscoresAux_noDouble _ false

/-! ## Lemmas for idempotence -/

theorem allowed_lower_fix (c : Char) (h : isAllowed c = true) : pyLowerChar c = c := by
  simp only [isAllowed, Bool.or_eq_true, Bool.and_eq_true, decide_eq_true_eq,
    Nat.beq_eq, beq_iff_eq] at h
  unfold pyLowerChar
  rw [if_neg]
  simp only [Bool.or_eq_true, Bool.and_eq_true, decide_eq_true_eq, beq_iff_eq, Bool.not_eq_true',
    not_or, not_and]
  omega

theorem allowed_ne_of_not_allowed (c d : Char) (h : isAllowed c = true)
    (hd : isAllowed d = false) : (c == d) = false := by
  by_contra hne
  rw [Bool.not_eq_false, beq_iff_eq] at hne
  subst hne
  rw [h] at hd
  cases hd

theorem all_allowed_not_contains (t : Str) (h : t.all isAllowed = true) (d : Char)
    (hd : isAllowed d = false) : pyContains t d = false := by
  induction t with
  | nil => rfl
  | cons c cs ih =>
    rw [List.all_cons, Bool.and_eq_true] at h
    simp only [pyContains, List.any_cons, Bool.or_eq_false_iff]
    exact ⟨allowed_ne_of_not_allowed c d h.1 hd, ih h.2⟩

theorem map_fix_of_all (t : Str) (f : Char → Char) (h : t.all isAllowed = true)
    (hf : ∀ c, isAllowed c = true → f c = c) : t.map f = t := by
  induction t with
  | nil => rfl
  | cons c cs ih =>
    rw [List.all_cons, Bool.and_eq_true] at h
    simp [hf c h.1, ih h.2]

theorem subDisallowedAux_fix (t : Str) (h : t.all isAllowed = true) :
    subDisallowedAux false t = t := by
  induction t with
  | nil => rfl
  | cons c cs ih =>
    rw [List.all_cons, Bool.and_eq_true] at h
    simp [subDisallowedAux, h.1, ih h.2]

theorem collapseUnderscoresAux_fix (t : Str) :
    ∀ b, hasDoubleUnderscore t = false → (b = true → headIsUnd t = false) →
      collapseUnderscoresAux b t = t := by
  induction t with
  | nil => intro b _ _; rfl
  | cons c cs ih =>
    intro b hd hh
    by_cases hc : c == '_'
    · have hb : b = false := by
        by_contra hb
        rw [Bool.not_eq_false] at hb
        have := hh hb
        simp [headIsUnd, hc] at this
      subst hb
      have hcs : hasDoubleUnderscore cs = false ∧ (headIsUnd cs = false) := by
        cases cs with
        | nil => exact ⟨rfl, rfl⟩
        | cons d rest =>
          simp only [hasDoubleUnderscore, Bool.or_eq_false_iff, Bool.and_eq_false_iff] at hd
          rcases hd with ⟨hd1, hd2⟩
          rcases hd1 with hd1 | hd1
          · rw [hc] at hd1; cases hd1
          · exact ⟨hd2, by simp [headIsUnd, hd1]⟩
      have hc2 : c = '_' := by rwa [beq_iff_eq] at hc
      subst hc2
      simp [collapseUnderscoresAux, ih true hcs.1 (fun _ => hcs.2)]
    · have hcs : hasDoubleUnderscore cs = false := by
        cases cs with
        | nil => rfl
        | cons d rest =>
          simp only [hasDoubleUnderscore, Bool.or_eq_false_iff] at hd
          exact hd.2
      simp [collapseUnderscoresAux, hc, ih false hcs (by intro hfalse; cases hfalse)]

theorem normTail_fix (t : Str) (h1 : t.all isAllowed = true)
    (h2 : hasDoubleUnderscore t = false) : normTail t = t := by
  unfold normTail
  rw [map_fix_of_all t pyLowerChar h1 allowed_lower_fix]
  rw [map_fix_of_all t _ h1 (fun c hc => by
    have : (c == 'ñ') = false := allowed_ne_of_not_allowed c 'ñ' hc (by decide)
    simp [this])]
  unfold subDisallowed at *
  rw [subDisallowedAux_fix t h1]
  exact collapseUnderscoresAux_fix t false h2 (by intro hfalse; cases hfalse)

theorem normalize_fix (t : Str) (h1 : t.all isAllowed = true)
    (h2 : hasDoubleUnderscore t = false) : _normalize_emoji_name t = t := by
  unfold _normalize_emoji_name
  rw [all_allowed_not_contains t h1 ':' (by decide)]
  simp only [Bool.false_eq_true, if_false]
  exact normTail_fix t h1 h2

/-- C2: for every input string, the output of `_normalize_emoji_name` consists
only of characters from the class `[a-z0-9#()*_]` and contains no two
consecutive underscores. -/
theorem claim_C2_alphabet (s : Str) :
    (_normalize_emoji_name s).all isAllowed = true ∧
    hasDoubleUnderscore (_normalize_emoji_name s) = false :=
  ⟨normalize_all s, normalize_noDouble s⟩

/-- C3: `_normalize_emoji_name` is idempotent. -/
theorem claim_C3_idempotent (s : Str) :
    _normalize_emoji_name (_normalize_emoji_name s) = _normalize_emoji_name s :=
  normalize_fix _ (normalize_all s) (normalize_noDouble s)

/-- C4 counterexample: the claim's "otherwise the name is truncated at the
first colon and the text before it is used" omits the `.strip()` the source
applies to the text before the colon.  On `"a :x"` the source yields `"a"`,
while using the untruncated text before the colon (followed by the remaining
normalization steps, `normTail`) would yield `"a_"`. -/
theorem claim_C4_counterexample :
    _normalize_emoji_name "a :x".data ≠ normTail (beforeChar ':' "a :x".data) ∧
    _normalize_emoji_name "a :x".data = "a".data ∧
    normTail (beforeChar ':' "a :x".data) = "a_".data := by
  refine ⟨by decide, by decide, by decide⟩

/-- C4 (amended): for a raw name containing a colon, if it starts with
`flag:` or `keycap:` the result is `flag_` + the trimmed lowercased suffix
after the first colon, followed by the remaining normalization steps;
otherwise the whitespace-trimmed text before the first colon is used,
followed by the remaining steps.  `"flag: Japan"` gives `"flag_japan"` and
`"keycap: 5"` gives `"flag_5"`. -/
theorem claim_C4_amended (s : Str) (h : pyContains s ':' = true) :
    ((pyStartswith "flag:".data s || pyStartswith "keycap:".data s) = true →
      _normalize_emoji_name s =
        normTail ("flag_".data ++ (pyStrip (afterFirst ':' s)).map pyLowerChar)) ∧
    ((pyStartswith "flag:".data s || pyStartswith "keycap:".data s) = false →
      _normalize_emoji_name s = normTail (pyStrip (beforeChar ':' s))) ∧
    _normalize_emoji_name "flag: Japan".data = "flag_japan".data ∧
    _normalize_emoji_name "keycap: 5".data = "flag_5".data := by
  refine ⟨?_, ?_, by decide, by decide⟩
  · intro hp
    simp [_normalize_emoji_name, h, hp]
  · intro hp
    simp [_normalize_emoji_name, h, hp]

/-- Witness for C4: the amended claim applied to the concrete name
`"flag: Japan"`. -/
theorem claim_C4_witness :
    _normalize_emoji_name "flag: Japan".data = "flag_japan".data :=
  (claim_C4_amended "flag: Japan".data (by decide)).2.2.1

/-- C5: `SPECIAL_MAPPINGS` maps the joiner codepoint 0x200D to `"_"` and has
exactly 26 further entries, keyed contiguously by 0x1F1E6..0x1F1FF in order,
with values `regional_indicator_a` .. `regional_indicator_z` (the letter
being the offset from the first regional indicator mapped onto a..z).  The
definition of `SPECIAL_MAPPINGS` takes no input, so the table is independent
of the registry file. -/
theorem claim_C5_special_table :
    SPECIAL_MAPPINGS.map Prod.fst =
      (0x200D : Int) :: (List.range 26).map (fun i => 0x1F1E6 + (i : Int)) ∧
    dlookup SPECIAL_MAPPINGS ZWJ = some "_".data ∧
    (List.range 26).map (fun i => dlookup SPECIAL_MAPPINGS (0x1F1E6 + (i : Int))) =
      (List.range 26).map
        (fun i => some ("regional_indicator_".data ++ [Char.ofNat (0x61 + i)])) := by
  refine ⟨by decide, by decide, by decide⟩

/-! ## Dictionary lemmas -/

theorem dlookup_dinsert (d : Dict) (k : Int) (v : Str) (q : Int) :
    dlookup (dinsert d k v) q = if k = q then some v else dlookup d q := by
  induction d with
  | nil => simp [dinsert, dlookup]
  | cons p rest ih =>
    obtain ⟨k0, v0⟩ := p
    by_cases h0 : k0 = k
    · subst h0
      by_cases hq : k0 = q
      · subst hq; simp [dinsert, dlookup]
      · simp [dinsert, dlookup, hq]
    · by_cases hq : k0 = q
      · subst hq
        have : ¬ k = k0 := fun hk => h0 hk.symm
        simp [dinsert, dlookup, h0, this]
      · simp [dinsert, dlookup, h0, hq, ih]

theorem dlookup_eq_none_of_not_mem (d : Dict) (k : Int)
    (h : k ∉ d.map Prod.fst) : dlookup d k = none := by
  induction d with
  | nil => rfl
  | cons p rest ih =>
    obtain ⟨k0, v0⟩ := p
    simp only [List.map_cons, List.mem_cons, not_or] at h
    have : k0 ≠ k := fun hk => h.1 hk.symm
    simp [dlookup, this, ih h.2]

theorem dmerge_lookup (b : Dict) (hb : (b.map Prod.fst).Nodup) (a : Dict) (k : Int) :
    dlookup (dmerge a b) k =
      match dlookup b k with
      | some v => some v
      | none => dlookup a k := by
  induction b generalizing a with
  | nil => simp [dmerge, dlookup]
  | cons p rest ih =>
    obtain ⟨k0, v0⟩ := p
    simp only [List.map_cons, List.nodup_cons] at hb
    have hstep : dmerge a ((k0, v0) :: rest) = dmerge (dinsert a k0 v0) rest := rfl
    rw [hstep, ih hb.2]
    by_cases hq : k0 = k
    · subst hq
      rw [dlookup_eq_none_of_not_mem rest k0 hb.1]
      simp [dlookup, dlookup_dinsert]
    · simp only [dlookup, hq, if_false]
      cases dlookup rest k with
      | some v => rfl
      | none => simp [dlookup_dinsert, hq]

/-- C6: the combined mapping `ALL_MAPPINGS` is the registry-derived mapping
overlaid with `SPECIAL_MAPPINGS`: on every key, the lookup equals the
special-table value when present, otherwise the registry value, otherwise
nothing; in particular a key is present in the combined mapping exactly when
it is present in one of the two. -/
theorem claim_C6_merge (emoji_mappings : Dict) (k : Int) :
    dlookup (ALL_MAPPINGS emoji_mappings) k =
      (match dlookup SPECIAL_MAPPINGS k with
       | some v => some v
       | none => dlookup emoji_mappings k) ∧
    (dlookup (ALL_MAPPINGS emoji_mappings) k).isSome =
      ((dlookup SPECIAL_MAPPINGS k).isSome || (dlookup emoji_mappings k).isSome) := by
  have hnd : (SPECIAL_MAPPINGS.map Prod.fst).Nodup := by decide
  have h1 := dmerge_lookup SPECIAL_MAPPINGS hnd emoji_mappings k
  refine ⟨h1, ?_⟩
  unfold ALL_MAPPINGS
  rw [h1]
  cases dlookup SPECIAL_MAPPINGS k with
  | some v => rfl
  | none => simp

/-! ## Claims about the line loop of parse_emoji_test -/

/-- C1: for every line accepted by `_parse_line` (after the loop's
`line.strip()`), the loop classifies it by codepoint count.  With exactly one
token that converts to `n`, the pair `(n, name)` is inserted into the
single-codepoint mapping (`dinsert` overwrites an existing key, so the last
write wins, as the lookup conjunct shows) and the sequence list is unchanged.
With more than one token, the converted sequence is appended at the end of
the (arbitrary) sequence list — in file order, without deduplication — and
the single-codepoint mapping is unchanged, so no component codepoint is added
by that line. -/
theorem claim_C1_classification (m : Dict) (seqs : List (List Int × Str)) (line : Str)
    (cps : List Str) (name : Str)
    (h : _parse_line (pyStrip line) = some (cps, name)) :
    (∀ t n, cps = [t] → pyIntBase16? t = some n →
      parseEmojiStep (m, seqs) line = some (dinsert m n name, seqs) ∧
      dlookup (dinsert m n name) n = some name) ∧
    (∀ ints, cps.length > 1 → mapIntTokens cps = some ints →
      parseEmojiStep (m, seqs) line = some (m, seqs ++ [(ints, name)])) := by
  constructor
  · intro t n hcps hhex
    subst hcps
    constructor
    · simp [parseEmojiStep, h, hhex]
    · simp [dlookup_dinsert]
  · intro ints hlen hmap
    simp [parseEmojiStep, h, hlen, hmap]

/-- Witness for C1: the single-codepoint branch of the claim at the concrete
registry line for the grinning face, starting from empty tables. -/
theorem claim_C1_witness :
    parseEmojiStep ([], []) "1F600 ; fully-qualified # G E1.0 grinning face".data =
      some ([((0x1F600 : Int), "grinning_face".data)], []) := by
  have h := (claim_C1_classification [] []
    "1F600 ; fully-qualified # G E1.0 grinning face".data
    ["1F600".data] "grinning_face".data (by decide)).1
    "1F600".data 0x1F600 rfl (by decide)
  exact h.1

/-! ## Lemmas about rejection and stripping -/

theorem mem_of_mem_dropWhile (p : Char → Bool) (l : Str) (c : Char)
    (h : c ∈ l.dropWhile p) : c ∈ l := by
  induction l with
  | nil => simp at h
  | cons a l ih =>
    by_cases ha : p a
    · rw [List.dropWhile_cons_of_pos ha] at h
      exact List.mem_cons_of_mem a (ih h)
    · rw [List.dropWhile_cons_of_neg (by simp [ha])] at h
      exact h

theorem pyContains_iff (l : Str) (c : Char) : pyContains l c = true ↔ c ∈ l := by
  simp [pyContains, List.any_eq_true]

theorem pyContains_strip_mono (l : Str) (c : Char) (h : pyContains l c = false) :
    pyContains (pyStrip l) c = false := by
  by_contra hc
  rw [Bool.not_eq_false, pyContains_iff] at hc
  have hmem : c ∈ l := by
    unfold pyStrip pyStripRight at hc
    rw [List.mem_reverse] at hc
    have h2 := mem_of_mem_dropWhile _ _ _ hc
    rw [List.mem_reverse] at h2
    exact mem_of_mem_dropWhile _ _ _ h2
  rw [← pyContains_iff] at hmem
  rw [h] at hmem
  cases hmem

theorem dropWhile_append_singleton (p : Char → Bool) (l : Str) (c : Char)
    (hc : p c = false) : ∃ ys, (l ++ [c]).dropWhile p = ys ++ [c] := by
  induction l with
  | nil => exact ⟨[], by simp [List.dropWhile_cons, hc]⟩
  | cons a l ih =>
    by_cases ha : p a
    · simpa [List.dropWhile_cons, ha] using ih
    · exact ⟨a :: l, by simp [List.dropWhile_cons, ha]⟩

theorem pyStrip_head_hash (l : Str) (h : pyStartswith "#".data l = true) :
    pyStartswith "#".data (pyStrip l) = true := by
  cases l with
  | nil => cases h
  | cons c t =>
    have hc : c = '#' := by
      simp only [pyStartswith, Bool.and_eq_true, beq_iff_eq] at h
      exact h.1.symm
    subst hc
    unfold pyStrip pyStripRight
    rw [List.dropWhile_cons_of_neg (by decide)]
    obtain ⟨ys, hys⟩ := dropWhile_append_singleton isPySpace t.reverse '#' (by decide)
    rw [List.reverse_cons, hys, List.reverse_append]
    simp [pyStartswith]

theorem parse_line_none_of (line : Str)
    (h : line.isEmpty = true ∨ pyStartswith "#".data line = true ∨
         pyContains line ';' = false ∨ pyContains line '#' = false) :
    _parse_line line = none := by
  rcases h with h | h | h | h
  · simp [_parse_line, h]
  · simp [_parse_line, h]
  · simp [_parse_line, h]
  · simp [_parse_line, h]

/-- C9: the line parser returns nothing on a line that is empty, begins with
`#`, or contains no `;` or no `#`; and the loop of `parse_emoji_test` skips
such a line silently, leaving its state unchanged. -/
theorem claim_C9_rejects (line : Str)
    (h : line.isEmpty = true ∨ pyStartswith "#".data line = true ∨
         pyContains line ';' = false ∨ pyContains line '#' = false) :
    _parse_line line = none ∧
    ∀ st : Dict × List (List Int × Str), parseEmojiStep st line = some st := by
  have hstrip : _parse_line (pyStrip line) = none := by
    apply parse_line_none_of
    rcases h with h | h | h | h
    · left
      have hnil : line = [] := List.isEmpty_iff.mp h
      subst hnil
      rfl
    · exact Or.inr (Or.inl (pyStrip_head_hash line h))
    · exact Or.inr (Or.inr (Or.inl (pyContains_strip_mono line ';' h)))
    · exact Or.inr (Or.inr (Or.inr (pyContains_strip_mono line '#' h)))
  refine ⟨parse_line_none_of line h, fun st => ?_⟩
  simp [parseEmojiStep, hstrip]

/-- Witness for C9: a line with no `;` is rejected. -/
theorem claim_C9_witness : _parse_line "hello".data = none :=
  (claim_C9_rejects "hello".data (Or.inr (Or.inr (Or.inl (by decide))))).1

/-- C10: the normalizer is total but can return the empty string — on
`": face"` the text before the first colon is empty, so normalization returns
`""` — and a line whose raw extracted name is `": face"` is still accepted
(the parser checks emptiness of the raw name before normalization), producing
a mapping entry whose name is the empty string. -/
theorem claim_C10_empty_name :
    _normalize_emoji_name ": face".data = [] ∧
    _extract_emoji_name (commentOf "1F600 ; fully-qualified # G E1.0 : face".data) =
      some ": face".data ∧
    _parse_line "1F600 ; fully-qualified # G E1.0 : face".data =
      some (["1F600".data], []) ∧
    parse_emoji_test ["1F600 ; fully-qualified # G E1.0 : face".data] =
      some ([((0x1F600 : Int), [])], []) := by
  refine ⟨by decide, by decide, by decide, by decide⟩

/-! ## Failure characterization of parse_emoji_test -/

theorem mapIntTokens_eq_none (ts : List Str) :
    mapIntTokens ts = none ↔ ∃ t ∈ ts, pyIntBase16? t = none := by
  induction ts with
  | nil => simp [mapIntTokens]
  | cons t ts ih =>
    cases h : pyIntBase16? t with
    | none => simp [mapIntTokens, h]
    | some n =>
      simp only [mapIntTokens, h]
      rw [Option.map_eq_none', ih]
      simp [h]

theorem parseEmojiStep_eq_none (st : Dict × List (List Int × Str)) (l : Str) :
    parseEmojiStep st l = none ↔ badLine l := by
  unfold parseEmojiStep badLine
  cases hp : _parse_line (pyStrip l) with
  | none => simp
  | some pr =>
    obtain ⟨cps, name⟩ := pr
    dsimp only
    by_cases hlen : cps.length > 1
    · rw [if_pos hlen]
      cases hm : mapIntTokens cps with
      | none =>
        constructor
        · intro _
          exact Or.inr ((mapIntTokens_eq_none cps).mp hm)
        · intro _
          rfl
      | some ints =>
        constructor
        · intro hco
          exact absurd hco (by simp)
        · intro hbad
          rcases hbad with hnil | hbad
          · subst hnil
            simp at hlen
          · have hm2 := (mapIntTokens_eq_none cps).mpr hbad
            rw [hm] at hm2
            cases hm2
    · rw [if_neg hlen]
      cases cps with
      | nil => simp
      | cons t rest =>
        cases rest with
        | nil =>
          simp only [List.head?]
          cases hx : pyIntBase16? t with
          | none => simp [hx]
          | some n => simp [hx]
        | cons u rest2 =>
          exfalso
          apply hlen
          simp only [List.length_cons]
          omega

theorem parseGo_eq_none (lines : List Str) :
    ∀ st, parseGo lines st = none ↔ ∃ l ∈ lines, badLine l := by
  induction lines with
  | nil => intro st; simp [parseGo]
  | cons l ls ih =>
    intro st
    unfold parseGo
    cases hs : parseEmojiStep st l with
    | none =>
      have hb : badLine l := (parseEmojiStep_eq_none st l).mp hs
      simp [hb]
    | some st2 =>
      have hb : ¬ badLine l := by
        intro hbad
        have hn := (parseEmojiStep_eq_none st l).mpr hbad
        rw [hs] at hn
        cases hn
      simp [ih st2, hb]

/-- C7 counterexample: the claim says registry parsing fails exactly on
non-hexadecimal codepoint tokens, but a line whose codepoint field is empty
is accepted by `_parse_line` with zero tokens — all of them (vacuously)
well-formed — and `parse_emoji_test` still fails on it (`codepoint_list[0]`
raises `IndexError` in the source). -/
theorem claim_C7_counterexample :
    _parse_line (pyStrip "; fully-qualified # Z E1.0 name".data) =
      some ([], "name".data) ∧
    parse_emoji_test ["; fully-qualified # Z E1.0 name".data] = none := by
  refine ⟨by decide, by decide⟩

/-- C7 (amended): `parse_emoji_test` fails exactly when some line is accepted
by the line parser and its codepoint field either has no tokens at all
(`IndexError` on `codepoint_list[0]`) or contains a token on which
`int(tok, 16)` raises; in particular, on files all of whose accepted lines
carry at least one well-formed hexadecimal token, the parser never raises,
and a single non-hexadecimal token makes the failure propagate uncaught. -/
theorem claim_C7_failure_iff (lines : List Str) :
    parse_emoji_test lines = none ↔ ∃ l ∈ lines, badLine l :=
  parseGo_eq_none lines ([], [])

/-! ## Lemmas about the comment-field split -/

theorem pySplitCharMax_ne_nil (sep : Char) (n : Nat) (cs : Str) :
    pySplitCharMax sep n cs ≠ [] := by
  cases n with
  | zero => simp [pySplitCharMax]
  | succ n =>
    unfold pySplitCharMax
    split <;> simp

theorem pySplitCharMax_length (sep : Char) (n : Nat) :
    ∀ cs, (pySplitCharMax sep n cs).length ≤ n + 1 := by
  induction n with
  | zero => intro cs; simp [pySplitCharMax]
  | succ n ih =>
    intro cs
    unfold pySplitCharMax
    split
    · simp only [List.length_cons]
      have := ih ((cs.dropWhile (fun c => !(c == sep))).tail)
      omega
    · simp

theorem contains_break (sep : Char) (cs : Str) (h : pyContains cs sep = true) :
    cs = cs.takeWhile (fun c => !(c == sep)) ++
      sep :: (cs.dropWhile (fun c => !(c == sep))).tail := by
  induction cs with
  | nil => cases h
  | cons c cs ih =>
    by_cases hc : c == sep
    · have hc2 : c = sep := by rwa [beq_iff_eq] at hc
      subst hc2
      rw [List.takeWhile_cons_of_neg (by simp), List.dropWhile_cons_of_neg (by simp)]
      simp
    · rw [List.takeWhile_cons_of_pos (by simp [hc]),
        List.dropWhile_cons_of_pos (by simp [hc])]
      have hcs : pyContains cs sep = true := by
        simp only [pyContains, List.any_cons, hc, Bool.false_or] at h
        exact h
      rw [List.cons_append]
      exact congrArg (c :: ·) (ih hcs)

theorem joinSep_splitMax (sep : Char) (n : Nat) :
    ∀ cs, joinSep sep (pySplitCharMax sep n cs) = cs := by
  induction n with
  | zero => intro cs; rfl
  | succ n ih =>
    intro cs
    unfold pySplitCharMax
    by_cases h : pyContains cs sep = true
    · rw [if_pos h]
      have hne := pySplitCharMax_ne_nil sep n ((cs.dropWhile (fun c => !(c == sep))).tail)
      cases hsp : pySplitCharMax sep n ((cs.dropWhile (fun c => !(c == sep))).tail) with
      | nil => exact absurd hsp hne
      | cons r rs =>
        simp only [joinSep]
        rw [← hsp, ih]
        exact (contains_break sep cs h).symm
    · rw [if_neg h]
      rfl

/-- C8 counterexample: the claim reads the comment field as split on
whitespace, but the source splits on single space characters keeping empty
pieces (`comment_part.split(' ', 2)`).  On a comment with two consecutive
spaces after the glyph piece, the whitespace reading gives the raw name
`"grin"`, while the source takes `"E1.0 grin"` (the version tag leaks into
the name) and produces `"e1_0_grin"`. -/
theorem claim_C8_counterexample :
    _parse_line "1F600 ; fully-qualified # e  E1.0 grin".data =
      some (["1F600".data], "e1_0_grin".data) ∧
    specSplitWsMax 2 (commentOf "1F600 ; fully-qualified # e  E1.0 grin".data) =
      ["e".data, "E1.0".data, "grin".data] ∧
    _normalize_emoji_name "grin".data ≠ "e1_0_grin".data := by
  refine ⟨by decide, by decide, by decide⟩

/-- C8 (amended): for every accepted line, the comment field is split on
single space characters (keeping empty pieces) into at most 3 pieces; the raw
name is the 3rd piece, which must be present and nonempty or the line is
rejected; the first two pieces are discarded — the comment is exactly
`p0 ++ " " ++ p1 ++ " " ++ raw` and only `raw` reaches normalization. -/
theorem claim_C8_name_extraction (line : Str) (cps : List Str) (name : Str) :
    (_parse_line line = some (cps, name) →
      ∃ p0 p1 raw, pySplitCharMax ' ' 2 (commentOf line) = [p0, p1, raw] ∧
        raw ≠ [] ∧ name = _normalize_emoji_name raw ∧
        commentOf line = p0 ++ ' ' :: (p1 ++ ' ' :: raw)) ∧
    ((pySplitCharMax ' ' 2 (commentOf line)).length < 3 ∨
      (pySplitCharMax ' ' 2 (commentOf line)).get? 2 = some [] →
      _parse_line line = none) := by
  constructor
  · intro h
    unfold _parse_line at h
    by_cases h1 : (line.isEmpty || pyStartswith "#".data line) = true
    · rw [if_pos h1] at h
      cases h
    · rw [if_neg h1] at h
      by_cases h2 : (!(pyContains line ';') || !(pyContains line '#')) = true
      · rw [if_pos h2] at h
        cases h
      · rw [if_neg h2] at h
        by_cases h3 : (!(pyContains (afterFirst ';' line) '#')) = true
        · rw [if_pos h3] at h
          cases h
        · rw [if_neg h3] at h
          cases hx : _extract_emoji_name (commentOf line) with
          | none =>
            rw [hx] at h
            cases h
          | some raw =>
            rw [hx] at h
            dsimp only at h
            by_cases hr : raw.isEmpty = true
            · rw [if_pos hr] at h
              cases h
            · rw [if_neg hr] at h
              rw [Option.some_inj, Prod.mk.injEq] at h
              obtain ⟨hcps, hname⟩ := h
              unfold _extract_emoji_name at hx
              by_cases hl : 3 ≤ (pySplitCharMax ' ' 2 (commentOf line)).length
              · rw [if_pos hl] at hx
                have hle := pySplitCharMax_length ' ' 2 (commentOf line)
                have hlen3 : (pySplitCharMax ' ' 2 (commentOf line)).length = 3 := by omega
                obtain ⟨p0, p1, p2, hp⟩ := List.length_eq_three.mp hlen3
                rw [hp] at hx
                have hx2 : some p2 = some raw := by
                  rw [← hx]
                  rfl
                have hp2 : p2 = raw := Option.some_inj.mp hx2
                subst hp2
                refine ⟨p0, p1, p2, by rw [hp], ?_, hname.symm, ?_⟩
                · intro hnil
                  subst hnil
                  exact hr rfl
                · have hj := joinSep_splitMax ' ' 2 (commentOf line)
                  rw [hp] at hj
                  simp only [joinSep] at hj
                  exact hj.symm
              · rw [if_neg hl] at hx
                cases hx
  · intro hcond
    unfold _parse_line
    by_cases h1 : (line.isEmpty || pyStartswith "#".data line) = true
    · rw [if_pos h1]
    · rw [if_neg h1]
      by_cases h2 : (!(pyContains line ';') || !(pyContains line '#')) = true
      · rw [if_pos h2]
      · rw [if_neg h2]
        by_cases h3 : (!(pyContains (afterFirst ';' line) '#')) = true
        · rw [if_pos h3]
        · rw [if_neg h3]
          cases hx : _extract_emoji_name (commentOf line) with
          | none => rfl
          | some raw =>
            dsimp only
            unfold _extract_emoji_name at hx
            by_cases hl : 3 ≤ (pySplitCharMax ' ' 2 (commentOf line)).length
            · rw [if_pos hl] at hx
              rcases hcond with hlt | hg
              · omega
              · rw [hx] at hg
                have hraw : raw = [] := Option.some_inj.mp hg
                subst hraw
                rfl
            · rw [if_neg hl] at hx
              cases hx

/-- Witness for C8: the rejection direction of the amended claim at a line
whose comment field has fewer than three space-separated pieces. -/
theorem claim_C8_witness : _parse_line "1F600 ; x # one".data = none :=
  (claim_C8_name_extraction "1F600 ; x # one".data [] []).2 (Or.inl (by decide))
